import Mathlib

/-!
Verification of the motif-scoring engine of the `liquidator` repository
(`src/liquidator/score_matrix.h`, `src/liquidator/motif_liquidator.m.cpp`).

Modelling conventions:
* C++ `double` values are embedded as `ℚ`; the one floating-point special
  value the code relies on, NaN (used for unscorable windows, see
  score_matrix.h:44-46), is embedded as `Option ℚ` with `none` for NaN,
  together with `nanLt` which realises the documented comparison rule
  "NaN < x is false for any double x".
* `std::array<double, AlphabetSize>` and matrix rows become lists; row
  length 4 is tracked by hypotheses/construction rather than by types.
* Functions whose bodies live in repository files that are not under
  `src/` (liquidator_util.h, score_matrix.cpp) are modelled from the
  spec; each such definition carries a `Modelled from the spec:` note.
-/

namespace Liquidator

/-- Size of the nucleotide alphabet (A, C, G, T). -/
def AlphabetSize : Nat := 4

/-- Modelled from the spec: `alphabet_index` of liquidator_util.h (the file
is not under src/). The spec's alphabet utilities give a case-insensitive
lookup of A/C/G/T; an invalid base maps outside the alphabet (the header's
`value` checks `column >= AlphabetSize` for invalid bases, so the invalid
result is `AlphabetSize` itself). -/
def alphabet_index (base : Char) : Nat :=
  if base = 'A' ∨ base = 'a' then 0
  else if base = 'C' ∨ base = 'c' then 1
  else if base = 'G' ∨ base = 'g' then 2
  else if base = 'T' ∨ base = 't' then 3
  else AlphabetSize

/-- Embedding of `ScoreMatrix::Score` (score_matrix.h:35-59). The C++
object also references the scored sequence; here the sequence is passed
separately to the functions that read it. `mPvalue = none` models the NaN
p-value of an unscorable window. -/
structure Score where
  mBegin : Nat
  mEnd : Nat
  mPvalue : Option ℚ
  mScore : ℚ
deriving DecidableEq, Repr, Inhabited

/-- Embedding of `ScoreMatrix` (score_matrix.h:16-96): name,
reverse-complement flag, background distribution, scaled integer matrix,
scale, offset, and p-value table. -/
structure ScoreMatrix where
  m_name : String
  m_is_reverse_complement : Bool
  m_background : List ℚ
  m_matrix : List (List Nat)
  m_scale : ℚ
  m_min_before_scaling : ℚ
  m_pvalues : List ℚ
deriving DecidableEq, Repr, Inhabited

/-- Modelled from the spec: the per-window row loop of
`ScoreMatrix::score_sequence` (score_matrix.cpp is not under src/).
Following spec §4.3, each row looks up the scaled value for the window's
symbol; a non-ACGT symbol makes the whole window unscorable (`none`),
otherwise the scaled values are summed. `pos` is the sequence index of the
current row's symbol. -/
def window_total (matrix : List (List Nat)) (sequence : List Char) (pos : Nat) : Option Nat :=
  match matrix with
  | [] => some 0
  | row :: rest =>
      let column := alphabet_index (sequence.getD pos ' ')
      if column < AlphabetSize then
        match window_total rest sequence (pos + 1) with
        | none => none
        | some t => some (row.getD column 0 + t)
      else none

/-- Modelled from the spec: `ScoreMatrix::score_sequence` (score_matrix.cpp
is not under src/). Spec §4.3: an unscorable window yields
`pvalue = NaN` (here `none`) and `score = 0`; otherwise the summed total is
converted to a real score via `total / scale + min_before_scaling * length`
and the p-value is `pvalues[total]`. -/
def score_sequence (m : ScoreMatrix) (sequence : List Char) (b e : Nat) : Score :=
  match window_total m.m_matrix sequence b with
  | none => ⟨b, e, none, 0⟩
  | some total =>
      ⟨b, e, some (m.m_pvalues.getD total 0),
        (total : ℚ) / m.m_scale + m.m_min_before_scaling * (m.m_matrix.length : ℚ)⟩

/-- One consumer invocation of the scan loop (score_matrix.h:68): the
arguments passed to `consumer(m_name, sequence_name,
!m_is_reverse_complement, start, stop, score)`. -/
structure ScanOutput where
  motifName : String
  sequenceName : String
  forwardStrand : Bool
  start : Nat
  stop : Nat
  score : Score
deriving DecidableEq, Repr, Inhabited

/-- Embedding of the scan loop of `ScoreMatrix::score` (score_matrix.h:62-70):
`for (size_t start = 1, stop = m_matrix.size(); stop <= sequence.size(); ++start, ++stop)`.
Iteration `k` (counting from 0) has `start = k + 1`, `stop = m_matrix.size() + k`,
and runs while `stop ≤ sequence.size()`, i.e. for
`k < sequence.length + 1 - m_matrix.length`; each iteration scores the
window `[start - 1, stop)` and pushes one record to the consumer. -/
def ScoreMatrix.score (m : ScoreMatrix) (sequence : List Char) (sequence_name : String) :
    List ScanOutput :=
  (List.range (sequence.length + 1 - m.m_matrix.length)).map fun k =>
    ⟨m.m_name, sequence_name, !m.m_is_reverse_complement, k + 1, m.m_matrix.length + k,
      score_sequence m sequence k (m.m_matrix.length + k)⟩

/-- Embedding of `operator<<` for Score (score_matrix.h:98-105): it writes
`toupper(m_sequence[i])` for every `i` in `[m_begin, m_end)`. The
`matched_sequence` member returns the same characters as a string. -/
def printed_characters (sequence : List Char) (sc : Score) : List Char :=
  ((sequence.drop sc.mBegin).take (sc.mEnd - sc.mBegin)).map Char.toUpper

/-- Comparison of a possibly-NaN double against a double, as used by the
code: score_matrix.h:45 documents "NaN < x is false for any double x". -/
def nanLt : Option ℚ → ℚ → Bool
  | none, _ => false
  | some p, x => decide (p < x)

/-- Embedding of the hit test of `BamScorer::operator()`
(motif_liquidator.m.cpp:258): `if (score.pvalue() < 0.0001)` guards the
`++m_total_hit_count`. -/
def bamHit (sc : Score) : Bool := nanLt sc.mPvalue (1 / 10000)

/-! ### Exact p-value table (spec §4.2)

The dynamic programme is modelled from the spec (score_matrix.cpp is not
under src/): a dense probability-mass array indexed by partial sum, one
convolution per matrix row into a freshly sized array, then a high-to-low
accumulation into a survival function. -/

/-- Adds probability mass `x` at index `i` of the dense distribution `l`
(scatter step of spec §4.2 step 2: "adding p * b mass at index t + v"). -/
def addAt (l : List ℚ) (i : Nat) (x : ℚ) : List ℚ :=
  l.set i (l.getD i 0 + x)

/-- Modelled from the spec (§4.2 step 2): for one previously reachable sum
`t` with mass `p`, add `p * b` mass at index `t + v` for every symbol with
scaled value `v` and background probability `b` (the pairs `rowbg`). -/
def addRowMasses (rowbg : List (Nat × ℚ)) (t : Nat) (p : ℚ) (acc : List ℚ) : List ℚ :=
  rowbg.foldl (fun a vb => addAt a (t + vb.1) (p * vb.2)) acc

/-- Modelled from the spec (§4.2 step 2): iterate over every reachable sum
of the running distribution `d` (the sum of its head being `t`), scattering
each mass through the row's symbol distribution into `acc`. -/
def scatter (rowbg : List (Nat × ℚ)) : List ℚ → Nat → List ℚ → List ℚ
  | [], _, acc => acc
  | p :: rest, t, acc => scatter rowbg rest (t + 1) (addRowMasses rowbg t p acc)

/-- Maximum scaled value of one matrix row (the row's cells are naturals). -/
def rowMax (row : List Nat) : Nat := row.foldr max 0

/-- Modelled from the spec (§4.2 step 2): convolution of the running
distribution with one row's symbol-score distribution, computed into a
freshly sized array whose max index grows by the row's maximum scaled
value. -/
def convolve_row (bg : List ℚ) (row : List Nat) (d : List ℚ) : List ℚ :=
  scatter (row.zip bg) d 0 (List.replicate (d.length + rowMax row) 0)

/-- Modelled from the spec (§4.2 steps 1-2): the mass distribution over
cumulative scaled sums after all rows. Starting from unit mass at sum 0,
convolving the first row realises step 1 (mass `background[s]` at index
`matrix[0][s]`), and each further fold step realises step 2. -/
def final_distribution (bg : List ℚ) (mat : List (List Nat)) : List ℚ :=
  mat.foldl (fun d row => convolve_row bg row d) [1]

/-- Modelled from the spec (§4.2 step 3): survival function of a mass
distribution, `pvalue[s] = pvalue[s+1] + mass[s]` with `pvalue[max+1] = 0`,
computed from the highest index downward. -/
def survival : List ℚ → List ℚ
  | [] => []
  | x :: rest =>
      let tail := survival rest
      (x + tail.headD 0) :: tail

/-- Maximum achievable cumulative scaled score of a matrix (the
matrix-length-weighted maximum of spec §3). -/
def max_sum (mat : List (List Nat)) : Nat := (mat.map rowMax).sum

/-! ### Score matrix construction (spec §4.1) -/

/-- Modelled from the spec (§4.1 step 1): pseudocount-adjusted frequency
`(observed * number_of_sites + background[symbol] * pseudo_sites) / (number_of_sites + pseudo_sites)`. -/
def pseudo_adjusted (background : List ℚ) (number_of_sites : Nat) (pseudo_sites : ℚ)
    (observed : ℚ) (symbol : Nat) : ℚ :=
  (observed * (number_of_sites : ℚ) + background.getD symbol 0 * pseudo_sites) /
    ((number_of_sites : ℚ) + pseudo_sites)

/-- Modelled from the spec (§4.1 step 2): log-odds value of one cell,
`log2(adjusted_frequency / background[symbol])`. `lg` stands for the pure
real `log2` function (the spec's log base 2, irrational in general, is kept
abstract; every theorem below holds for an arbitrary `lg`). -/
def log_odds_value (lg : ℚ → ℚ) (background : List ℚ) (pwm : List (List ℚ))
    (number_of_sites : Nat) (pseudo_sites : ℚ) (r s : Nat) : ℚ :=
  lg (pseudo_adjusted background number_of_sites pseudo_sites
        ((pwm.getD r []).getD s 0) s / background.getD s 0)

/-- Matrix of log-odds values, one row per pwm row, 4 symbols per row. -/
def log_odds_matrix (lg : ℚ → ℚ) (background : List ℚ) (pwm : List (List ℚ))
    (number_of_sites : Nat) (pseudo_sites : ℚ) : List (List ℚ) :=
  pwm.map fun row =>
    (List.range AlphabetSize).map fun s =>
      lg (pseudo_adjusted background number_of_sites pseudo_sites (row.getD s 0) s /
            background.getD s 0)

/-- Minimum of a list of rationals (0 for the empty list, which the
construction never produces). -/
def list_min : List ℚ → ℚ
  | [] => 0
  | x :: xs => xs.foldl min x

/-- Maximum of a list of rationals (0 for the empty list). -/
def list_max : List ℚ → ℚ
  | [] => 0
  | x :: xs => xs.foldl max x

/-- Modelled from the spec (§4.1 step 3): number of discrete levels the
dynamic range is mapped onto ("target: several hundred discrete levels"). -/
def scaleLevels : ℚ := 300

/-- Minimum log-odds value across the whole matrix, spec §4.1 step 3
(`min_before_scaling`). -/
def construction_min (lg : ℚ → ℚ) (background : List ℚ) (pwm : List (List ℚ))
    (number_of_sites : Nat) (pseudo_sites : ℚ) : ℚ :=
  list_min (log_odds_matrix lg background pwm number_of_sites pseudo_sites).flatten

/-- Maximum log-odds value across the whole matrix. -/
def construction_max (lg : ℚ → ℚ) (background : List ℚ) (pwm : List (List ℚ))
    (number_of_sites : Nat) (pseudo_sites : ℚ) : ℚ :=
  list_max (log_odds_matrix lg background pwm number_of_sites pseudo_sites).flatten

/-- Modelled from the spec (§4.1 step 3): the scale factor mapping the
dynamic range `max - min` onto `scaleLevels` discrete levels (1 when the
range is degenerate). -/
def construction_scale (lg : ℚ → ℚ) (background : List ℚ) (pwm : List (List ℚ))
    (number_of_sites : Nat) (pseudo_sites : ℚ) : ℚ :=
  if construction_max lg background pwm number_of_sites pseudo_sites
      = construction_min lg background pwm number_of_sites pseudo_sites then 1
  else scaleLevels /
    (construction_max lg background pwm number_of_sites pseudo_sites
      - construction_min lg background pwm number_of_sites pseudo_sites)

/-- Modelled from the spec (§4.1 step 4): the scaled integer matrix,
`round((log_odds_value - min_before_scaling) * scale)` clipped at 0
(`Int.toNat` realises the clip into the `unsigned` cells of
score_matrix.h:90). -/
def scaled_matrix (lg : ℚ → ℚ) (background : List ℚ) (pwm : List (List ℚ))
    (number_of_sites : Nat) (pseudo_sites : ℚ) : List (List Nat) :=
  (log_odds_matrix lg background pwm number_of_sites pseudo_sites).map fun row =>
    row.map fun v =>
      (round ((v - construction_min lg background pwm number_of_sites pseudo_sites)
        * construction_scale lg background pwm number_of_sites pseudo_sites)).toNat

/-- Modelled from the spec: the `ScoreMatrix` constructor
(score_matrix.h:26-31; its body, score_matrix.cpp, is not under src/).
Following spec §4.1 it rejects a zero-row frequency matrix, a row without
exactly 4 symbol frequencies, and a zero background probability; otherwise
it computes log-odds values, `min_before_scaling`, the `scale` factor, the
clipped rounded scaled integer matrix, and the p-value table of §4.2. -/
def mkScoreMatrix (lg : ℚ → ℚ) (name : String) (background : List ℚ)
    (pwm : List (List ℚ)) (number_of_sites : Nat) (is_reverse_complement : Bool)
    (pseudo_sites : ℚ) : Except String ScoreMatrix :=
  if pwm.length = 0 then
    .error "motif has zero rows"
  else if ¬ (∀ row ∈ pwm, row.length = AlphabetSize) then
    .error "row must have exactly 4 symbol frequencies"
  else if ¬ (∀ b ∈ background, b ≠ 0) then
    .error "zero background probability"
  else
    let mat := scaled_matrix lg background pwm number_of_sites pseudo_sites
    .ok ⟨name, is_reverse_complement, background, mat,
      construction_scale lg background pwm number_of_sites pseudo_sites,
      construction_min lg background pwm number_of_sites pseudo_sites,
      survival (final_distribution background mat)⟩

/-- Matrix value lookup, `ScoreMatrix::value` (score_matrix.h:79-84): an
invalid base throws (`Except.error`); otherwise the scaled cell for the
position (row) and base (column) is returned as an `int`. -/
def ScoreMatrix.value (m : ScoreMatrix) (position : Nat) (base : Char) : Except String ℤ :=
  if AlphabetSize ≤ alphabet_index base then
    .error ("Invalid base " ++ String.mk [base])
  else
    .ok (((m.m_matrix.getD position []).getD (alphabet_index base) 0 : Nat) : ℤ)

/-! ### Command-line processing (motif_liquidator.m.cpp:17-142) -/

/-- Embedding of the `InputType` enum (motif_liquidator.m.cpp:17-22). -/
inductive InputType where
  | bam_input_type
  | fasta_input_type
  | invalid_input_type
deriving DecidableEq, Repr, Inhabited

/-- The parsed option values of one invocation: the options registered at
motif_liquidator.m.cpp:43-56 ("background", "help", "output", "region",
"unmapped-only", "verbose" plus the positional "motif" and
"fasta_or_bam"). Value-taking options hold `some` of their argument when
supplied. -/
structure ParsedOptions where
  background : Option String
  help : Bool
  output : Option String
  region : Option String
  unmapped_only : Bool
  verbose : Bool
  motif : Option String
  fasta_or_bam : Option String
deriving DecidableEq, Repr, Inhabited

/-- Count contributed by one optional value. -/
def optCount (o : Option String) : Nat := if o.isSome then 1 else 0

/-- Embedding of `vm.count(key)` on the boost `variables_map` populated by
the parser: the count of a registered key supplied on the command line,
and 0 for any key that was never registered (boost stores entries only
under the registered option names). -/
def vm_count (vm : ParsedOptions) (key : String) : Nat :=
  if key = "background" then optCount vm.background
  else if key = "help" then (if vm.help then 1 else 0)
  else if key = "output" then optCount vm.output
  else if key = "region" then optCount vm.region
  else if key = "unmapped-only" then (if vm.unmapped_only then 1 else 0)
  else if key = "verbose" then (if vm.verbose then 1 else 0)
  else if key = "motif" then optCount vm.motif
  else if key = "fasta_or_bam" then optCount vm.fasta_or_bam
  else 0

/-- Characters after the last dot of a character list, or `none` when no
dot occurs. -/
def afterLastDot : List Char → Option (List Char)
  | [] => none
  | c :: rest =>
      match afterLastDot rest with
      | some s => some s
      | none => if c = '.' then some rest else none

/-- Embedding of `boost::filesystem::extension` as used at
motif_liquidator.m.cpp:88: the suffix of the path from its final dot
(inclusive), empty when the path has no dot. -/
def extension (path : String) : String :=
  match afterLastDot path.data with
  | none => ""
  | some s => String.mk ('.' :: s)

/-- Result of `process_command_line`: the returned code together with the
out-parameters the caller (main) goes on to use. -/
structure ProcessResult where
  rc : Nat
  input_type : InputType
  region_file_path : String
  verbose : Bool
  unmapped_only : Bool
deriving DecidableEq, Repr, Inhabited

/-- Embedding of `process_command_line` (motif_liquidator.m.cpp:24-142)
after option parsing succeeded: the help check (line 71), the positional
count check (line 79), the extension dispatch (lines 88-101), the region
filter check exactly as written at line 103 — note the source queries
`vm.count("region_file_path")` although the registered option name is
"region" — the motif-file open check (lines 109-114) and the
background-file open check (lines 116-125). `motif_opens` and
`background_opens` stand for the success of the two `ifstream` opens. -/
def process_command_line (vm : ParsedOptions) (motif_opens : Bool)
    (background_opens : Bool) : ProcessResult :=
  if vm.help then ⟨1, .invalid_input_type, "", false, false⟩
  else if ¬ (vm_count vm "motif" = 1 ∧ vm_count vm "fasta_or_bam" = 1) then
    ⟨1, .invalid_input_type, "", false, false⟩
  else
    let ext := extension (vm.fasta_or_bam.getD "")
    if ext = ".bam" ∨ ext = ".fasta" then
      let input_type : InputType :=
        if ext = ".bam" then .bam_input_type else .fasta_input_type
      if vm_count vm "region_file_path" ≠ 0 ∧ input_type ≠ .bam_input_type then
        ⟨1, input_type, vm.region.getD "", false, false⟩
      else if ¬ motif_opens then ⟨1, input_type, vm.region.getD "", false, false⟩
      else if vm_count vm "background" ≠ 0 ∧ ¬ background_opens then
        ⟨1, input_type, vm.region.getD "", false, false⟩
      else ⟨0, input_type, vm.region.getD "", vm.verbose, vm.unmapped_only⟩
    else ⟨1, .invalid_input_type, "", false, false⟩

/-! ### Concrete instances used by the witness theorems -/

/-- Concrete score matrix used as a witness input for the scan theorems;
the field values are arbitrary. -/
def exM : ScoreMatrix :=
  ⟨"AC", false, [1/4, 1/4, 1/4, 1/4], [[3, 0, 0, 0], [0, 5, 0, 0]], 1, 0,
    [1, 1, 1, 1, 1, 1, 1, 1, 1]⟩

/-- Concrete sequence with a non-ACGT character at index 1. -/
def exSeq : List Char := ['A', 'N', 'A', 'C']

/-- Concrete stand-in for log2 used by the construction witnesses. -/
def exLg : ℚ → ℚ := fun q => q

/-- Uniform background. -/
def exBg : List ℚ := [1/4, 1/4, 1/4, 1/4]

/-- One-row frequency matrix. -/
def exPwm : List (List ℚ) := [[1, 0, 0, 0]]

/-- The matrix produced by the concrete construction
`mkScoreMatrix exLg "ex" exBg exPwm 10 false (1/10)` (see `exCon_ok`). -/
def exConM : ScoreMatrix :=
  ⟨"ex", false, exBg, scaled_matrix exLg exBg exPwm 10 (1/10),
    construction_scale exLg exBg exPwm 10 (1/10),
    construction_min exLg exBg exPwm 10 (1/10),
    survival (final_distribution exBg (scaled_matrix exLg exBg exPwm 10 (1/10)))⟩

/-- Helper: `getD` of a mapped range, inside the range. -/
theorem getD_range_map {α : Type} (c : Nat) (f : Nat → α) (k : Nat) (d : α)
    (h : k < c) : (((List.range c).map f).getD k d) = f k := by
  have hk : k < ((List.range c).map f).length := by
    simpa using h
  rw [List.getD_eq_getElem _ _ hk]
  simp

/-- Helper: `getD` of a mapped list, inside the range. -/
theorem getD_map {α β : Type} (f : α → β) (l : List α) (i : Nat) (d : β) (d' : α)
    (h : i < l.length) : (l.map f).getD i d = f (l.getD i d') := by
  have hm : i < (l.map f).length := by simpa using h
  rw [List.getD_eq_getElem _ _ hm, List.getD_eq_getElem _ _ h]
  simp

/-- Helper: `getD` with default 0 of a list of non-negative rationals. -/
theorem getD_nonneg {l : List ℚ} (h : ∀ y ∈ l, 0 ≤ y) (i : Nat) : 0 ≤ l.getD i 0 := by
  by_cases hi : i < l.length
  · rw [List.getD_eq_getElem _ _ hi]
    exact h _ (List.getElem_mem _)
  · rw [List.getD_eq_default _ _ (le_of_not_lt hi)]

/-- Helper: `getD 0` agrees with `headD`. -/
theorem getD_zero_eq_headD (l : List ℚ) : l.getD 0 0 = l.headD 0 := by
  cases l <;> rfl

theorem length_addAt (l : List ℚ) (i : Nat) (x : ℚ) :
    (addAt l i x).length = l.length := by
  simp [addAt]

theorem nonneg_addAt {l : List ℚ} {x : ℚ} (hl : ∀ y ∈ l, 0 ≤ y) (hx : 0 ≤ x)
    (i : Nat) : ∀ y ∈ addAt l i x, 0 ≤ y := by
  intro y hy
  rcases List.mem_or_eq_of_mem_set hy with h | h
  · exact hl y h
  · subst h
    exact add_nonneg (getD_nonneg hl i) hx

theorem sum_addAt {l : List ℚ} {i : Nat} (h : i < l.length) (x : ℚ) :
    (addAt l i x).sum = l.sum + x := by
  induction l generalizing i with
  | nil => simp at h
  | cons a rest ih =>
    cases i with
    | zero =>
      simp [addAt]
      ring
    | succ i =>
      have hi : i < rest.length := by simpa using h
      have : addAt (a :: rest) (i + 1) x = a :: addAt rest i x := by
        simp [addAt]
      rw [this, List.sum_cons, List.sum_cons, ih hi]
      ring

theorem length_addRowMasses (rowbg : List (Nat × ℚ)) (t : Nat) (p : ℚ) (acc : List ℚ) :
    (addRowMasses rowbg t p acc).length = acc.length := by
  induction rowbg generalizing acc with
  | nil => rfl
  | cons vb rest ih =>
    simp only [addRowMasses, List.foldl_cons] at *
    rw [ih, length_addAt]

theorem nonneg_addRowMasses {rowbg : List (Nat × ℚ)} {t : Nat} {p : ℚ} {acc : List ℚ}
    (hb : ∀ vb ∈ rowbg, 0 ≤ vb.2) (hp : 0 ≤ p) (ha : ∀ y ∈ acc, 0 ≤ y) :
    ∀ y ∈ addRowMasses rowbg t p acc, 0 ≤ y := by
  induction rowbg generalizing acc with
  | nil => exact ha
  | cons vb rest ih =>
    simp only [addRowMasses, List.foldl_cons] at *
    exact ih (fun u hu => hb u (List.mem_cons_of_mem _ hu))
      (nonneg_addAt ha (mul_nonneg hp (hb vb (List.mem_cons_self _ _))) _)

theorem sum_addRowMasses {rowbg : List (Nat × ℚ)} {t : Nat} {p : ℚ} {acc : List ℚ}
    (hin : ∀ vb ∈ rowbg, t + vb.1 < acc.length) :
    (addRowMasses rowbg t p acc).sum = acc.sum + p * (rowbg.map Prod.snd).sum := by
  induction rowbg generalizing acc with
  | nil => simp [addRowMasses]
  | cons vb rest ih =>
    simp only [addRowMasses, List.foldl_cons] at *
    rw [ih]
    · rw [sum_addAt (hin vb (List.mem_cons_self _ _))]
      simp
      ring
    · intro u hu
      rw [length_addAt]
      exact hin u (List.mem_cons_of_mem _ hu)

theorem length_scatter (rowbg : List (Nat × ℚ)) (d : List ℚ) (t : Nat) (acc : List ℚ) :
    (scatter rowbg d t acc).length = acc.length := by
  induction d generalizing t acc with
  | nil => rfl
  | cons p rest ih =>
    simp only [scatter]
    rw [ih, length_addRowMasses]

theorem nonneg_scatter {rowbg : List (Nat × ℚ)} {d : List ℚ} {t : Nat} {acc : List ℚ}
    (hb : ∀ vb ∈ rowbg, 0 ≤ vb.2) (hd : ∀ y ∈ d, 0 ≤ y) (ha : ∀ y ∈ acc, 0 ≤ y) :
    ∀ y ∈ scatter rowbg d t acc, 0 ≤ y := by
  induction d generalizing t acc with
  | nil => exact ha
  | cons p rest ih =>
    simp only [scatter]
    exact ih (fun u hu => hd u (List.mem_cons_of_mem _ hu))
      (nonneg_addRowMasses hb (hd p (List.mem_cons_self _ _)) ha)

theorem sum_scatter {rowbg : List (Nat × ℚ)} {d : List ℚ} {t : Nat} {acc : List ℚ}
    (hin : ∀ vb ∈ rowbg, ∀ k < d.length, t + k + vb.1 < acc.length) :
    (scatter rowbg d t acc).sum = acc.sum + d.sum * (rowbg.map Prod.snd).sum := by
  induction d generalizing t acc with
  | nil => simp [scatter]
  | cons p rest ih =>
    simp only [scatter]
    rw [ih]
    · rw [sum_addRowMasses (fun vb hvb => by simpa using hin vb hvb 0 (by simp))]
      simp
      ring
    · intro vb hvb k hk
      rw [length_addRowMasses]
      have := hin vb hvb (k + 1) (by simpa using hk)
      omega

theorem mem_le_rowMax {v : Nat} {row : List Nat} (h : v ∈ row) : v ≤ rowMax row := by
  induction row with
  | nil => simp at h
  | cons a rest ih =>
    rcases List.mem_cons.mp h with h | h
    · subst h
      simp only [rowMax, List.foldr_cons]
      exact le_max_left _ _
    · simp only [rowMax, List.foldr_cons]
      exact le_trans (ih h) (le_max_right _ _)

theorem length_convolve_row (bg : List ℚ) (row : List Nat) (d : List ℚ) :
    (convolve_row bg row d).length = d.length + rowMax row := by
  simp [convolve_row, length_scatter]

theorem nonneg_convolve_row {bg : List ℚ} {row : List Nat} {d : List ℚ}
    (hbg : ∀ b ∈ bg, 0 ≤ b) (hd : ∀ y ∈ d, 0 ≤ y) :
    ∀ y ∈ convolve_row bg row d, 0 ≤ y := by
  apply nonneg_scatter _ hd
  · intro y hy
    rw [List.eq_of_mem_replicate hy]
  · intro vb hvb
    exact hbg vb.2 (List.of_mem_zip hvb).2

theorem sum_convolve_row {bg : List ℚ} {row : List Nat} (d : List ℚ)
    (hlen : bg.length ≤ row.length) :
    (convolve_row bg row d).sum = d.sum * bg.sum := by
  unfold convolve_row
  rw [sum_scatter]
  · rw [List.map_snd_zip _ _ hlen]
    simp
  · intro vb hvb k hk
    have h1 : vb.1 ≤ rowMax row := mem_le_rowMax (List.of_mem_zip hvb).1
    simp only [List.length_replicate]
    omega

theorem length_foldl_convolve (bg : List ℚ) (mat : List (List Nat)) :
    ∀ d : List ℚ,
      (mat.foldl (fun d row => convolve_row bg row d) d).length = d.length + max_sum mat := by
  induction mat with
  | nil => intro d; simp [max_sum]
  | cons row rest ih =>
    intro d
    simp only [List.foldl_cons]
    rw [ih, length_convolve_row]
    simp [max_sum]
    omega

theorem length_final_distribution (bg : List ℚ) (mat : List (List Nat)) :
    (final_distribution bg mat).length = max_sum mat + 1 := by
  unfold final_distribution
  rw [length_foldl_convolve]
  simp
  omega

theorem nonneg_final_distribution {bg : List ℚ} (mat : List (List Nat))
    (hbg : ∀ b ∈ bg, 0 ≤ b) : ∀ y ∈ final_distribution bg mat, 0 ≤ y := by
  unfold final_distribution
  have base : ∀ y ∈ ([1] : List ℚ), 0 ≤ y := by
    intro y hy
    simp at hy
    simp [hy]
  generalize ([1] : List ℚ) = d at *
  induction mat generalizing d with
  | nil => exact base
  | cons row rest ih =>
    simp only [List.foldl_cons]
    exact ih _ (nonneg_convolve_row hbg base)

theorem sum_final_distribution {bg : List ℚ} {mat : List (List Nat)}
    (hrows : ∀ row ∈ mat, bg.length ≤ row.length) :
    (final_distribution bg mat).sum = bg.sum ^ mat.length := by
  unfold final_distribution
  have main : ∀ d : List ℚ,
      (mat.foldl (fun d row => convolve_row bg row d) d).sum = d.sum * bg.sum ^ mat.length := by
    induction mat with
    | nil => intro d; simp
    | cons row rest ih =>
      intro d
      simp only [List.foldl_cons]
      rw [ih (fun r hr => hrows r (List.mem_cons_of_mem _ hr)),
        sum_convolve_row _ (hrows row (List.mem_cons_self _ _))]
      simp [List.length_cons, pow_succ]
      ring
  rw [main]
  simp

theorem length_survival (l : List ℚ) : (survival l).length = l.length := by
  induction l with
  | nil => rfl
  | cons x rest ih => simp [survival, ih]

theorem headD_survival (l : List ℚ) : (survival l).headD 0 = l.sum := by
  induction l with
  | nil => rfl
  | cons x rest ih =>
    show x + (survival rest).headD 0 = (x :: rest).sum
    rw [ih, List.sum_cons]

theorem getD_survival_succ (l : List ℚ) (i : Nat) :
    (survival l).getD i 0 = l.getD i 0 + (survival l).getD (i + 1) 0 := by
  induction l generalizing i with
  | nil => simp [survival]
  | cons x rest ih =>
    cases i with
    | zero =>
      show (survival (x :: rest)).getD 0 0 = x + (survival (x :: rest)).getD 1 0
      rw [getD_zero_eq_headD]
      simp only [survival]
      show x + (survival rest).headD 0 = x + (survival rest).getD 0 0
      rw [getD_zero_eq_headD]
    | succ i =>
      show (survival (x :: rest)).getD (i + 1) 0
          = rest.getD i 0 + (survival (x :: rest)).getD (i + 2) 0
      simp only [survival]
      show (survival rest).getD i 0 = rest.getD i 0 + (survival rest).getD (i + 1) 0
      exact ih i

theorem survival_monotone {l : List ℚ} (hl : ∀ y ∈ l, 0 ≤ y) (i : Nat) :
    (survival l).getD (i + 1) 0 ≤ (survival l).getD i 0 := by
  rw [getD_survival_succ l i]
  have := getD_nonneg hl i
  linarith

theorem getD_survival_zero (l : List ℚ) : (survival l).getD 0 0 = l.sum := by
  rw [getD_zero_eq_headD, headD_survival]

theorem scaled_matrix_row_length (lg : ℚ → ℚ) (background : List ℚ)
    (pwm : List (List ℚ)) (number_of_sites : Nat) (pseudo_sites : ℚ) :
    ∀ row ∈ scaled_matrix lg background pwm number_of_sites pseudo_sites,
      row.length = AlphabetSize := by
  intro row hrow
  simp only [scaled_matrix, log_odds_matrix, List.map_map, List.mem_map] at hrow
  obtain ⟨r, -, rfl⟩ := hrow
  simp

theorem length_scaled_matrix (lg : ℚ → ℚ) (background : List ℚ)
    (pwm : List (List ℚ)) (number_of_sites : Nat) (pseudo_sites : ℚ) :
    (scaled_matrix lg background pwm number_of_sites pseudo_sites).length = pwm.length := by
  simp [scaled_matrix, log_odds_matrix]

/-- Unpacking of a successful construction: the resulting object's fields,
and the input conditions the guards enforce. -/
theorem mkScoreMatrix_ok {lg : ℚ → ℚ} {name : String} {background : List ℚ}
    {pwm : List (List ℚ)} {number_of_sites : Nat} {is_reverse_complement : Bool}
    {pseudo_sites : ℚ} {m : ScoreMatrix}
    (h : mkScoreMatrix lg name background pwm number_of_sites is_reverse_complement
          pseudo_sites = Except.ok m) :
    m = ⟨name, is_reverse_complement, background,
          scaled_matrix lg background pwm number_of_sites pseudo_sites,
          construction_scale lg background pwm number_of_sites pseudo_sites,
          construction_min lg background pwm number_of_sites pseudo_sites,
          survival (final_distribution background
            (scaled_matrix lg background pwm number_of_sites pseudo_sites))⟩
      ∧ pwm.length ≠ 0
      ∧ (∀ row ∈ pwm, row.length = AlphabetSize)
      ∧ (∀ b ∈ background, b ≠ 0) := by
  unfold mkScoreMatrix at h
  split_ifs at h with h1 h2 h3
  cases h
  exact ⟨rfl, h1, h2, h3⟩

theorem score_sequence_range (m : ScoreMatrix) (s : List Char) (b e : Nat) :
    (score_sequence m s b e).mBegin = b ∧ (score_sequence m s b e).mEnd = e := by
  unfold score_sequence
  cases window_total m.m_matrix s b <;> exact ⟨rfl, rfl⟩

theorem window_total_eq_none {mat : List (List Nat)} {s : List Char} {i : Nat}
    (h : ∃ r, r < mat.length ∧ AlphabetSize ≤ alphabet_index (s.getD (i + r) ' ')) :
    window_total mat s i = none := by
  induction mat generalizing i with
  | nil =>
    obtain ⟨r, hr, -⟩ := h
    simp at hr
  | cons row rest ih =>
    obtain ⟨r, hr, hbad⟩ := h
    simp only [window_total]
    cases r with
    | zero =>
      have hcol : ¬ alphabet_index (s.getD i ' ') < AlphabetSize := by
        simp only [Nat.add_zero] at hbad
        omega
      rw [if_neg hcol]
    | succ r =>
      by_cases hcol : alphabet_index (s.getD i ' ') < AlphabetSize
      · have hrec : window_total rest s (i + 1) = none := by
          apply ih
          refine ⟨r, by simpa using hr, ?_⟩
          have harr : i + 1 + r = i + (r + 1) := by omega
          rw [harr]
          exact hbad
        rw [if_pos hcol, hrec]
      · rw [if_neg hcol]

/-- The concrete construction succeeds and produces `exConM` (helper shared
by the construction witnesses). -/
theorem exCon_ok :
    mkScoreMatrix exLg "ex" exBg exPwm 10 false (1/10) = Except.ok exConM := by
  have c1 : ¬ exPwm.length = 0 := by decide
  have c2 : ∀ row ∈ exPwm, row.length = AlphabetSize := by decide
  have c3 : ∀ b ∈ exBg, b ≠ 0 := by
    intro b hb
    simp only [exBg, List.mem_cons, List.not_mem_nil, or_false] at hb
    rcases hb with rfl | rfl | rfl | rfl <;> norm_num
  unfold mkScoreMatrix
  rw [if_neg c1, if_neg (not_not_intro c2), if_neg (not_not_intro c3)]
  rfl

/-! ### Claim theorems -/

/-- C1: for every ScoreMatrix `m` and sequence `s`, the scan delivers
exactly `max 0 (length s - length m + 1)` Scores to the consumer, one per
window of `length m` consecutive characters fully inside `s`, in
left-to-right order of window start (record `k` covers the window starting
at `k`, reported with 1-based `start = k + 1`, `stop = length m + k`); in
particular a sequence exactly as long as the matrix yields exactly one
Score, and a shorter sequence yields zero Scores. -/
theorem scan_delivers_one_score_per_window (m : ScoreMatrix) (s : List Char) (nm : String) :
    (((ScoreMatrix.score m s nm).length : ℤ)
        = max 0 ((s.length : ℤ) - (m.m_matrix.length : ℤ) + 1))
    ∧ (∀ k, k < (ScoreMatrix.score m s nm).length →
        ((ScoreMatrix.score m s nm).getD k default).start = k + 1
        ∧ ((ScoreMatrix.score m s nm).getD k default).stop = m.m_matrix.length + k
        ∧ ((ScoreMatrix.score m s nm).getD k default).score.mBegin = k
        ∧ ((ScoreMatrix.score m s nm).getD k default).score.mEnd = m.m_matrix.length + k)
    ∧ (s.length = m.m_matrix.length → (ScoreMatrix.score m s nm).length = 1)
    ∧ (s.length < m.m_matrix.length → (ScoreMatrix.score m s nm).length = 0) := by
  have hlen : (ScoreMatrix.score m s nm).length = s.length + 1 - m.m_matrix.length := by
    simp [ScoreMatrix.score]
  refine ⟨?_, ?_, ?_, ?_⟩
  · rw [hlen]
    rcases le_total ((s.length : ℤ) - (m.m_matrix.length : ℤ) + 1) 0 with h | h
    · rw [max_eq_left h]
      omega
    · rw [max_eq_right h]
      omega
  · intro k hk
    rw [hlen] at hk
    have hget : (ScoreMatrix.score m s nm).getD k default
        = ⟨m.m_name, nm, !m.m_is_reverse_complement, k + 1, m.m_matrix.length + k,
            score_sequence m s k (m.m_matrix.length + k)⟩ := by
      unfold ScoreMatrix.score
      exact getD_range_map _ _ _ _ hk
    rw [hget]
    exact ⟨rfl, rfl, (score_sequence_range m s k _).1, (score_sequence_range m s k _).2⟩
  · intro h
    rw [hlen, h]
    omega
  · intro h
    rw [hlen]
    omega

/-- Witness for C1 at a concrete matrix and sequence. -/
theorem scan_delivers_one_score_per_window_witness :
    (((ScoreMatrix.score exM exSeq "seq").length : ℤ)
        = max 0 ((exSeq.length : ℤ) - (exM.m_matrix.length : ℤ) + 1))
    ∧ ((ScoreMatrix.score exM exSeq "seq").getD 0 default).start = 0 + 1 :=
  ⟨(scan_delivers_one_score_per_window exM exSeq "seq").1,
    ((scan_delivers_one_score_per_window exM exSeq "seq").2.1 0 (by decide)).1⟩

/-- C3: a scan window containing a non-ACGT character yields a Score with
`pvalue = NaN` (modelled as `none`) and `score = 0`; the scan still
delivers every window (scanning continues), and the BamScorer hit test
`pvalue < 0.0001` is false for such a Score, so the hit counter is not
incremented. -/
theorem unscorable_window_nan_and_continues (m : ScoreMatrix) (s : List Char) (nm : String)
    (k r : Nat) (hk : k < (ScoreMatrix.score m s nm).length) (hr : r < m.m_matrix.length)
    (hbad : AlphabetSize ≤ alphabet_index (s.getD (k + r) ' ')) :
    ((ScoreMatrix.score m s nm).getD k default).score.mPvalue = none
    ∧ ((ScoreMatrix.score m s nm).getD k default).score.mScore = 0
    ∧ bamHit ((ScoreMatrix.score m s nm).getD k default).score = false
    ∧ (ScoreMatrix.score m s nm).length = s.length + 1 - m.m_matrix.length := by
  have hlen : (ScoreMatrix.score m s nm).length = s.length + 1 - m.m_matrix.length := by
    simp [ScoreMatrix.score]
  have hk' : k < s.length + 1 - m.m_matrix.length := by
    rw [hlen] at hk
    exact hk
  have hget : (ScoreMatrix.score m s nm).getD k default
      = ⟨m.m_name, nm, !m.m_is_reverse_complement, k + 1, m.m_matrix.length + k,
          score_sequence m s k (m.m_matrix.length + k)⟩ := by
    unfold ScoreMatrix.score
    exact getD_range_map _ _ _ _ hk'
  have hnone : window_total m.m_matrix s k = none :=
    window_total_eq_none ⟨r, hr, hbad⟩
  have hscore : score_sequence m s k (m.m_matrix.length + k)
      = ⟨k, m.m_matrix.length + k, none, 0⟩ := by
    unfold score_sequence
    rw [hnone]
  rw [hget, hscore]
  exact ⟨rfl, rfl, rfl, hlen⟩

/-- Witness for C3: window 0 of `exSeq` contains the invalid character
`N` at offset 1. -/
theorem unscorable_window_nan_witness :
    ((ScoreMatrix.score exM exSeq "seq").getD 0 default).score.mPvalue = none
    ∧ ((ScoreMatrix.score exM exSeq "seq").getD 0 default).score.mScore = 0
    ∧ bamHit ((ScoreMatrix.score exM exSeq "seq").getD 0 default).score = false
    ∧ (ScoreMatrix.score exM exSeq "seq").length
        = exSeq.length + 1 - exM.m_matrix.length :=
  unscorable_window_nan_and_continues exM exSeq "seq" 0 1 (by decide) (by decide) (by decide)

/-- C10: every Score delivered during a scan of a non-empty matrix has a
half-open range with `begin < end ≤ length s` and `end - begin` equal to
the matrix length, so `operator<<` / `matched_sequence` read exactly the
matrix-length in-bounds characters of the caller's sequence (upper-cased
for display, with no truncation). Constructed matrices are non-empty
(`mkScoreMatrix` rejects zero-row motifs), which justifies the
hypothesis. -/
theorem score_ranges_in_bounds (m : ScoreMatrix) (s : List Char) (nm : String)
    (hpos : 0 < m.m_matrix.length) :
    ∀ o ∈ ScoreMatrix.score m s nm,
      o.score.mBegin < o.score.mEnd
      ∧ o.score.mEnd ≤ s.length
      ∧ o.score.mEnd - o.score.mBegin = m.m_matrix.length
      ∧ (printed_characters s o.score).length = m.m_matrix.length := by
  intro o ho
  unfold ScoreMatrix.score at ho
  rw [List.mem_map] at ho
  obtain ⟨k, hk, rfl⟩ := ho
  rw [List.mem_range] at hk
  have hmain : m.m_matrix.length + k ≤ s.length := by omega
  obtain ⟨hb, he⟩ := score_sequence_range m s k (m.m_matrix.length + k)
  dsimp only
  rw [printed_characters, hb, he]
  refine ⟨by omega, by omega, by omega, ?_⟩
  simp only [List.length_map, List.length_take, List.length_drop]
  omega

/-- Witness for C10 at a concrete matrix and sequence. -/
theorem score_ranges_in_bounds_witness :
    ((ScoreMatrix.score exM exSeq "seq").getD 0 default).score.mBegin
        < ((ScoreMatrix.score exM exSeq "seq").getD 0 default).score.mEnd
    ∧ ((ScoreMatrix.score exM exSeq "seq").getD 0 default).score.mEnd ≤ exSeq.length
    ∧ ((ScoreMatrix.score exM exSeq "seq").getD 0 default).score.mEnd
        - ((ScoreMatrix.score exM exSeq "seq").getD 0 default).score.mBegin
        = exM.m_matrix.length
    ∧ (printed_characters exSeq
          ((ScoreMatrix.score exM exSeq "seq").getD 0 default).score).length
        = exM.m_matrix.length :=
  score_ranges_in_bounds exM exSeq "seq" (by decide)
    ((ScoreMatrix.score exM exSeq "seq").getD 0 default) (by decide)

/-- C4: the p-value table of every successfully constructed ScoreMatrix is
monotonically non-increasing in the integer score (a survival function);
the hypothesis on the background realises the data model's "4 non-negative
real values". Reads past the end of the table are taken as 0, so the
inequality also covers the last in-range index. -/
theorem pvalues_nonincreasing (lg : ℚ → ℚ) (name : String) (bg : List ℚ)
    (pwm : List (List ℚ)) (ns : Nat) (rc : Bool) (ps : ℚ) (m : ScoreMatrix)
    (hbg : ∀ b ∈ bg, 0 ≤ b)
    (hok : mkScoreMatrix lg name bg pwm ns rc ps = Except.ok m) (s : Nat) :
    m.m_pvalues.getD (s + 1) 0 ≤ m.m_pvalues.getD s 0 := by
  obtain ⟨hm, -, -, -⟩ := mkScoreMatrix_ok hok
  subst hm
  exact survival_monotone (nonneg_final_distribution _ hbg) s

/-- Witness for C4 at a concrete construction. -/
theorem pvalues_nonincreasing_witness :
    exConM.m_pvalues.getD 1 0 ≤ exConM.m_pvalues.getD 0 0 :=
  pvalues_nonincreasing exLg "ex" exBg exPwm 10 false (1/10) exConM
    (by norm_num [exBg]) exCon_ok 0

/-- C5: the p-value table of every successfully constructed ScoreMatrix
has exactly `max_sum + 1` entries, where `max_sum` is the
matrix-length-weighted maximum achievable scaled score; `pvalues[0]` is
the total probability mass (exactly 1 in this exact-rational embedding,
given a background summing to 1), and the survival value just past
`max_sum` is 0. -/
theorem pvalues_table_shape (lg : ℚ → ℚ) (name : String) (bg : List ℚ)
    (pwm : List (List ℚ)) (ns : Nat) (rc : Bool) (ps : ℚ) (m : ScoreMatrix)
    (hbg4 : bg.length = AlphabetSize) (hsum : bg.sum = 1)
    (hok : mkScoreMatrix lg name bg pwm ns rc ps = Except.ok m) :
    m.m_pvalues.length = max_sum m.m_matrix + 1
    ∧ m.m_pvalues.getD 0 0 = 1
    ∧ m.m_pvalues.getD (max_sum m.m_matrix + 1) 0 = 0 := by
  obtain ⟨hm, -, -, -⟩ := mkScoreMatrix_ok hok
  subst hm
  have hrows : ∀ row ∈ scaled_matrix lg bg pwm ns ps, bg.length ≤ row.length := by
    intro row hrow
    rw [scaled_matrix_row_length lg bg pwm ns ps row hrow, hbg4]
  refine ⟨?_, ?_, ?_⟩
  · show (survival (final_distribution bg (scaled_matrix lg bg pwm ns ps))).length
        = max_sum (scaled_matrix lg bg pwm ns ps) + 1
    rw [length_survival, length_final_distribution]
  · show (survival (final_distribution bg (scaled_matrix lg bg pwm ns ps))).getD 0 0 = 1
    rw [getD_survival_zero, sum_final_distribution hrows, hsum, one_pow]
  · apply List.getD_eq_default
    rw [length_survival, length_final_distribution]

/-- Witness for C5 at a concrete construction. -/
theorem pvalues_table_shape_witness :
    exConM.m_pvalues.length = max_sum exConM.m_matrix + 1
    ∧ exConM.m_pvalues.getD 0 0 = 1
    ∧ exConM.m_pvalues.getD (max_sum exConM.m_matrix + 1) 0 = 0 :=
  pvalues_table_shape exLg "ex" exBg exPwm 10 false (1/10) exConM
    (by rfl) (by norm_num [exBg]) exCon_ok

/-- C6: construction is deterministic — two successful constructions from
component-wise identical inputs produce identical scaled integer matrices
and identical p-value tables (the embedding is a pure function of its
inputs, mirroring the constructor's freedom from hidden state). -/
theorem construction_deterministic (lg : ℚ → ℚ) (n1 n2 : String) (bg1 bg2 : List ℚ)
    (pwm1 pwm2 : List (List ℚ)) (ns1 ns2 : Nat) (rc1 rc2 : Bool) (ps1 ps2 : ℚ)
    (m1 m2 : ScoreMatrix)
    (heq : n1 = n2 ∧ bg1 = bg2 ∧ pwm1 = pwm2 ∧ ns1 = ns2 ∧ rc1 = rc2 ∧ ps1 = ps2)
    (h1 : mkScoreMatrix lg n1 bg1 pwm1 ns1 rc1 ps1 = Except.ok m1)
    (h2 : mkScoreMatrix lg n2 bg2 pwm2 ns2 rc2 ps2 = Except.ok m2) :
    m1.m_matrix = m2.m_matrix ∧ m1.m_pvalues = m2.m_pvalues := by
  obtain ⟨e1, e2, e3, e4, e5, e6⟩ := heq
  subst e1
  subst e2
  subst e3
  subst e4
  subst e5
  subst e6
  rw [h1] at h2
  cases h2
  exact ⟨rfl, rfl⟩

/-- Witness for C6 at a concrete construction. -/
theorem construction_deterministic_witness :
    exConM.m_matrix = exConM.m_matrix ∧ exConM.m_pvalues = exConM.m_pvalues :=
  construction_deterministic exLg "ex" "ex" exBg exBg exPwm exPwm 10 10 false false
    (1/10) (1/10) exConM exConM ⟨rfl, rfl, rfl, rfl, rfl, rfl⟩ exCon_ok exCon_ok

/-- C7: every scaled cell of a successfully constructed ScoreMatrix equals
`round((log_odds_value - min_before_scaling) * scale)` clipped at 0, where
the log-odds value comes from the pseudocount-adjusted frequency; in
particular every scaled cell is a non-negative integer. -/
theorem scaled_cell_formula (lg : ℚ → ℚ) (name : String) (bg : List ℚ)
    (pwm : List (List ℚ)) (ns : Nat) (rc : Bool) (ps : ℚ) (m : ScoreMatrix) (r s : Nat)
    (hok : mkScoreMatrix lg name bg pwm ns rc ps = Except.ok m)
    (hr : r < m.m_matrix.length) (hs : s < AlphabetSize) :
    (((m.m_matrix.getD r []).getD s 0 : Nat) : ℤ)
        = max 0 (round ((log_odds_value lg bg pwm ns ps r s - m.m_min_before_scaling)
            * m.m_scale))
    ∧ (0 : ℤ) ≤ (((m.m_matrix.getD r []).getD s 0 : Nat) : ℤ) := by
  obtain ⟨hm, -, -, -⟩ := mkScoreMatrix_ok hok
  subst hm
  have hr' : r < pwm.length := by
    rw [← length_scaled_matrix lg bg pwm ns ps]
    exact hr
  have hrlo : r < (log_odds_matrix lg bg pwm ns ps).length := by
    simpa [log_odds_matrix] using hr'
  have hcell : ((scaled_matrix lg bg pwm ns ps).getD r []).getD s 0
      = (round ((log_odds_value lg bg pwm ns ps r s
            - construction_min lg bg pwm ns ps)
          * construction_scale lg bg pwm ns ps)).toNat := by
    unfold scaled_matrix
    rw [getD_map _ _ r [] [] hrlo]
    have hlo : (log_odds_matrix lg bg pwm ns ps).getD r []
        = (List.range AlphabetSize).map fun t =>
            lg (pseudo_adjusted bg ns ps ((pwm.getD r []).getD t 0) t / bg.getD t 0) := by
      unfold log_odds_matrix
      exact getD_map _ _ r [] [] hr'
    rw [hlo, List.map_map]
    exact getD_range_map _ _ _ _ hs
  refine ⟨?_, Int.natCast_nonneg _⟩
  show (((((scaled_matrix lg bg pwm ns ps).getD r []).getD s 0 : Nat)) : ℤ) = _
  rw [hcell, Int.toNat_eq_max, max_comm]

/-- Witness for C7 at a concrete construction. -/
theorem scaled_cell_formula_witness :
    (((exConM.m_matrix.getD 0 []).getD 0 0 : Nat) : ℤ)
        = max 0 (round ((log_odds_value exLg exBg exPwm 10 (1/10) 0 0
            - exConM.m_min_before_scaling) * exConM.m_scale))
    ∧ (0 : ℤ) ≤ (((exConM.m_matrix.getD 0 []).getD 0 0 : Nat) : ℤ) :=
  scaled_cell_formula exLg "ex" exBg exPwm 10 false (1/10) exConM 0 0
    exCon_ok (by simp [exConM, length_scaled_matrix, exPwm]) (by decide)

/-- C8: construction fails exactly when the frequency matrix has zero
rows, or some row does not have exactly 4 symbol frequencies, or some
background probability is zero; every other input constructs
successfully. -/
theorem construction_rejects_iff (lg : ℚ → ℚ) (name : String) (bg : List ℚ)
    (pwm : List (List ℚ)) (ns : Nat) (rc : Bool) (ps : ℚ) :
    (mkScoreMatrix lg name bg pwm ns rc ps).isOk = false
      ↔ (pwm = [] ∨ (∃ row ∈ pwm, row.length ≠ AlphabetSize) ∨ (∃ b ∈ bg, b = 0)) := by
  by_cases h1 : pwm.length = 0
  · unfold mkScoreMatrix
    rw [if_pos h1]
    exact iff_of_true rfl (Or.inl (List.length_eq_zero.mp h1))
  · by_cases h2 : ∀ row ∈ pwm, row.length = AlphabetSize
    · by_cases h3 : ∀ b ∈ bg, b ≠ 0
      · unfold mkScoreMatrix
        rw [if_neg h1, if_neg (not_not_intro h2), if_neg (not_not_intro h3)]
        apply iff_of_false
        · exact fun h => Bool.noConfusion h
        · rintro (h | ⟨row, hrow, hne⟩ | ⟨b, hb, h0⟩)
          · exact h1 (by rw [h]; rfl)
          · exact hne (h2 row hrow)
          · exact h3 b hb h0
      · unfold mkScoreMatrix
        rw [if_neg h1, if_neg (not_not_intro h2), if_pos h3]
        push_neg at h3
        exact iff_of_true rfl (Or.inr (Or.inr h3))
    · unfold mkScoreMatrix
      rw [if_neg h1, if_pos h2]
      push_neg at h2
      exact iff_of_true rfl (Or.inr (Or.inl h2))

/-- C9: for a position inside the matrix, `ScoreMatrix::value` throws
exactly when the base is not one of A/C/G/T in upper or lower case, and
otherwise returns the scaled matrix cell for that position and base. -/
theorem value_error_iff (m : ScoreMatrix) (pos : Nat) (base : Char)
    (_hpos : pos < m.m_matrix.length) :
    ((∃ e, ScoreMatrix.value m pos base = Except.error e)
        ↔ base ∉ (['A', 'a', 'C', 'c', 'G', 'g', 'T', 't'] : List Char))
    ∧ (base ∈ (['A', 'a', 'C', 'c', 'G', 'g', 'T', 't'] : List Char) →
        ScoreMatrix.value m pos base
          = Except.ok (((m.m_matrix.getD pos []).getD (alphabet_index base) 0 : Nat) : ℤ)) := by
  have hval : alphabet_index base < AlphabetSize
      ↔ base ∈ (['A', 'a', 'C', 'c', 'G', 'g', 'T', 't'] : List Char) := by
    constructor
    · intro h
      unfold alphabet_index at h
      split_ifs at h with h1 h2 h3 h4
      · rcases h1 with h' | h' <;> simp [h']
      · rcases h2 with h' | h' <;> simp [h']
      · rcases h3 with h' | h' <;> simp [h']
      · rcases h4 with h' | h' <;> simp [h']
      · exact absurd h (lt_irrefl _)
    · intro h
      simp only [List.mem_cons, List.not_mem_nil, or_false] at h
      rcases h with rfl | rfl | rfl | rfl | rfl | rfl | rfl | rfl <;> decide
  refine ⟨⟨?_, ?_⟩, ?_⟩
  · rintro ⟨e, he⟩ hmem
    have hlt : alphabet_index base < AlphabetSize := hval.mpr hmem
    unfold ScoreMatrix.value at he
    rw [if_neg (by omega)] at he
    cases he
  · intro hnot
    have hge : AlphabetSize ≤ alphabet_index base := by
      by_contra hlt
      exact hnot (hval.mp (by omega))
    refine ⟨"Invalid base " ++ String.mk [base], ?_⟩
    unfold ScoreMatrix.value
    rw [if_pos hge]
  · intro hmem
    have hlt : alphabet_index base < AlphabetSize := hval.mpr hmem
    unfold ScoreMatrix.value
    rw [if_neg (by omega)]

/-- Witness for C9: looking up the invalid base `N` at position 0 of the
concrete matrix. -/
theorem value_error_iff_witness :
    ((∃ e, ScoreMatrix.value exM 0 'N' = Except.error e)
        ↔ 'N' ∉ (['A', 'a', 'C', 'c', 'G', 'g', 'T', 't'] : List Char))
    ∧ ('N' ∈ (['A', 'a', 'C', 'c', 'G', 'g', 'T', 't'] : List Char) →
        ScoreMatrix.value exM 0 'N'
          = Except.ok (((exM.m_matrix.getD 0 []).getD (alphabet_index 'N') 0 : Nat) : ℤ)) :=
  value_error_iff exM 0 'N' (by decide)

/-- C2 (code defect): `process_command_line` queries
`vm.count("region_file_path")` (motif_liquidator.m.cpp:103), but the
registered option name is "region" (line 47), so the count is 0 for every
invocation and the "only .bam input files support region filtering" guard
never fires: supplying a region file together with a `.fasta` input makes
`process_command_line` return 0 (success, input type fasta) with the
region silently ignored, instead of reporting the invalid region filter
and returning non-zero as the spec requires. -/
theorem region_filter_check_never_fires :
    (∀ vm : ParsedOptions, vm_count vm "region_file_path" = 0)
    ∧ process_command_line
        ⟨none, false, none, some "regions.bed", false, false,
          some "motif.txt", some "reads.fasta"⟩ true true
      = ⟨0, InputType.fasta_input_type, "regions.bed", false, false⟩ :=
  ⟨fun _ => rfl, by rfl⟩

end Liquidator
